import Mathlib

/-!
Verification of the dotfiles manager (remolueoend/dotfiles).

This file shallowly embeds the reconciliation engine of the tool:

* the path model: relative and absolute paths are component lists
  (`PathBuf := List String`), matching Rust's `PathBuf` component semantics
  (`PathBuf` equality, ordering and `starts_with` are all component-wise);
* `src/config.rs`: `into_normalized_mapping` (the normalizing serde
  deserializer) and `AppConfig::validate_nested_mappings`;
* `src/commands/status.rs`: the pruning breadth-first repository walker
  `get_dotfiles_entries` and the per-entry state classifier
  `get_dotfiles_entry_state`;
* `src/commands/add.rs`: the change planner `get_required_changes` and its
  error type.

Filesystem observations (existence with symlink-following semantics,
no-follow symlink-ness, the literal stored symlink target) are modelled by
a record of total functions `FsView`; the repository tree walked by the
`status` command is modelled by the finite tree `FsTree` (a leaf is a file
or a symlink, which `symlink_metadata().is_dir()` reports as not a
directory and which the walker therefore never descends into).
-/

/-- A path, Rust `PathBuf`, as its list of components.  Rust `PathBuf`
equality, ordering and `starts_with` are component-wise, which this
representation makes definitional. -/
abbrev PathBuf := List String

/-- Injectivity of the character data of a string. -/
theorem string_data_inj {a b : String} (h : a.data = b.data) : a = b := by
  cases a
  cases b
  exact congrArg String.mk h

/-- Component-wise lexicographic `le` on paths: the order underlying Rust's
`Ord for PathBuf`, which compares the two component sequences
lexicographically, each component byte-wise.  Components are compared via
their character lists; for UTF-8 data byte order and code-point order
agree. -/
def pathLe : PathBuf → PathBuf → Bool
  | [], _ => true
  | _ :: _, [] => false
  | a :: as, b :: bs =>
    if a.data < b.data then true else if a = b then pathLe as bs else false

/-- Propositional form of `pathLe`, used as the sorting relation. -/
def pathLeP (a b : PathBuf) : Prop := pathLe a b = true

instance : DecidableRel pathLeP := fun a b => inferInstanceAs (Decidable (pathLe a b = true))

theorem pathLe_refl (l : PathBuf) : pathLe l l = true := by
  induction l with
  | nil => rfl
  | cons a as ih => simp [pathLe, ih]

theorem pathLe_total (a b : PathBuf) : pathLe a b = true ∨ pathLe b a = true := by
  induction a generalizing b with
  | nil => exact Or.inl rfl
  | cons x xs ih =>
    cases b with
    | nil => exact Or.inr rfl
    | cons y ys =>
      rcases lt_trichotomy x.data y.data with hxy | hxy | hxy
      · exact Or.inl (by simp [pathLe, hxy])
      · have hxy2 : x = y := string_data_inj hxy
        subst hxy2
        rcases ih ys with h | h
        · exact Or.inl (by simp [pathLe, h])
        · exact Or.inr (by simp [pathLe, h])
      · exact Or.inr (by simp [pathLe, hxy])

theorem pathLe_trans {a b c : PathBuf} (hab : pathLe a b = true) (hbc : pathLe b c = true) :
    pathLe a c = true := by
  induction a generalizing b c with
  | nil => rfl
  | cons x xs ih =>
    cases b with
    | nil => simp [pathLe] at hab
    | cons y ys =>
      cases c with
      | nil => simp [pathLe] at hbc
      | cons z zs =>
        simp only [pathLe] at hab hbc ⊢
        by_cases hxy : x.data < y.data
        · by_cases hyz : y.data < z.data
          · simp [lt_trans hxy hyz]
          · simp only [if_neg hyz] at hbc
            by_cases hyz2 : y = z
            · subst hyz2; simp [hxy]
            · simp [hyz2] at hbc
        · simp only [if_neg hxy] at hab
          by_cases hxy2 : x = y
          · subst hxy2
            simp only [if_pos rfl] at hab
            by_cases hxz : x.data < z.data
            · simp [hxz]
            · simp only [if_neg hxz] at hbc ⊢
              by_cases hxz2 : x = z
              · subst hxz2
                simp only [if_pos rfl] at hbc ⊢
                exact ih hab hbc
              · simp [hxz2] at hbc
          · simp [hxy2] at hab

theorem pathLe_antisymm {a b : PathBuf} (hab : pathLe a b = true) (hba : pathLe b a = true) :
    a = b := by
  induction a generalizing b with
  | nil =>
    cases b with
    | nil => rfl
    | cons y ys => simp [pathLe] at hba
  | cons x xs ih =>
    cases b with
    | nil => simp [pathLe] at hab
    | cons y ys =>
      simp only [pathLe] at hab hba
      by_cases hxy : x.data < y.data
      · by_cases hyx : y.data < x.data
        · exact absurd hyx (lt_asymm hxy)
        · have : ¬ y = x := fun h => by subst h; exact lt_irrefl _ hxy
          simp [hyx, this] at hba
      · by_cases hxy2 : x = y
        · subst hxy2
          simp only [if_neg hxy, if_pos rfl] at hab hba
          exact congrArg (x :: ·) (ih hab hba)
        · simp [hxy, hxy2] at hab

instance : IsTotal PathBuf pathLeP := ⟨pathLe_total⟩
instance : IsTrans PathBuf pathLeP := ⟨fun _ _ _ => pathLe_trans⟩

/-- A path that is a component-prefix of another is `pathLe`-below it. -/
theorem pathLe_of_isPrefix {a b : PathBuf} (h : a <+: b) : pathLe a b = true := by
  induction a generalizing b with
  | nil => rfl
  | cons x xs ih =>
    obtain ⟨t, ht⟩ := h
    cases b with
    | nil => simp at ht
    | cons y ys =>
      obtain ⟨rfl, hys⟩ : x = y ∧ xs ++ t = ys := by
        constructor
        · exact (List.cons.injEq .. ▸ ht).1
        · exact (List.cons.injEq .. ▸ ht).2
      simp only [pathLe, lt_self_iff_false, if_false, if_pos rfl]
      exact ih ⟨t, hys⟩

/-- Sandwich lemma: in the component-lexicographic order, anything between a
path and one of its extensions is itself an extension of that path.  This is
the fact that makes the sort-then-check-adjacent-pairs validation of
`validate_nested_mappings` equivalent to an all-pairs check. -/
theorem isPrefix_of_between {p q e : PathBuf} (hpq : pathLe p q = true)
    (hqe : pathLe q e = true) (hpe : p <+: e) : p <+: q := by
  induction p generalizing q e with
  | nil => exact List.nil_prefix
  | cons x xs ih =>
    obtain ⟨t, ht⟩ := hpe
    cases e with
    | nil => simp at ht
    | cons z zs =>
      obtain ⟨hxz, hzs⟩ : x = z ∧ xs ++ t = zs := by
        constructor
        · exact (List.cons.injEq .. ▸ ht).1
        · exact (List.cons.injEq .. ▸ ht).2
      subst hxz
      cases q with
      | nil => simp [pathLe] at hpq
      | cons y ys =>
        simp only [pathLe] at hpq hqe
        by_cases hxy : x.data < y.data
        · by_cases hyx : y.data < x.data
          · exact absurd hyx (lt_asymm hxy)
          · have : ¬ y = x := fun h => by subst h; exact lt_irrefl _ hxy
            simp [hyx, this] at hqe
        · by_cases hxy2 : x = y
          · subst hxy2
            simp only [if_neg hxy, if_pos rfl] at hpq hqe
            obtain ⟨t2, ht2⟩ := ih hpq hqe ⟨t, hzs⟩
            exact ⟨t2, by rw [List.cons_append, ht2]⟩
          · simp [hxy, hxy2] at hpq

/-- Boolean component-prefix check (`List.isPrefixOf`), the embedding of
Rust's `PathBuf::starts_with`.  Its propositional counterpart is `<+:`. -/
theorem isPrefixOf_eq_true_iff {α : Type} [BEq α] [LawfulBEq α] (a b : List α) :
    a.isPrefixOf b = true ↔ a <+: b := by
  induction a generalizing b with
  | nil => simp [List.isPrefixOf, List.nil_prefix]
  | cons x xs ih =>
    cases b with
    | nil =>
      simp only [List.isPrefixOf]
      constructor
      · intro h; exact absurd h (by simp)
      · intro h
        obtain ⟨t, ht⟩ := h
        simp at ht
    | cons y ys =>
      simp only [List.isPrefixOf, Bool.and_eq_true, beq_iff_eq]
      rw [ih]
      constructor
      · rintro ⟨rfl, ⟨t, ht⟩⟩
        exact ⟨t, by rw [List.cons_append, ht]⟩
      · rintro ⟨t, ht⟩
        obtain ⟨h1, h2⟩ : x = y ∧ xs ++ t = ys := by
          constructor
          · exact (List.cons.injEq .. ▸ ht).1
          · exact (List.cons.injEq .. ▸ ht).2
        exact ⟨h1, t, h2⟩

/-! ## `src/config.rs`: configuration model -/

/-- Embedding of the relevant `AppError` variant from `src/errors.rs`:
`ConfigNestedLinks(nested, parent)` reports a nested mapping together with
its offending ancestor. -/
inductive AppError where
  | configNestedLinks (nested parent : PathBuf)
deriving DecidableEq, Repr

/-- Embedding of Rust `mappings.sort()` in `validate_nested_mappings`: a
stable sort by `Ord for PathBuf`.  Under the antisymmetric total order
`pathLeP` every sorted permutation of a list is the same list, so insertion
sort produces exactly the list Rust's merge sort produces. -/
def sortPaths (mappings : List PathBuf) : List PathBuf :=
  List.insertionSort pathLeP mappings

/-- The adjacent-pair scan of `AppConfig::validate_nested_mappings`
(`src/config.rs` lines 113-119): walk the sorted list and report the first
adjacent pair `(current, next)` with `next.starts_with(current)` as
`ConfigNestedLinks(next, current)`. -/
def check_adjacent : List PathBuf → Except AppError Unit
  | a :: b :: rest =>
    if a.isPrefixOf b then Except.error (AppError.configNestedLinks b a)
    else check_adjacent (b :: rest)
  | _ => Except.ok ()

/-- Embedding of `AppConfig::validate_nested_mappings` (`src/config.rs`
lines 107-122): empty mapping list is valid; otherwise sort a copy of the
mappings and scan adjacent pairs. -/
def validate_nested_mappings (mappings : List PathBuf) : Except AppError Unit :=
  if mappings.length = 0 then Except.ok ()
  else check_adjacent (sortPaths mappings)

/-- One parsed component of a Rust path, as produced by
`Path::components()`: the current-directory marker `.`, the parent marker
`..`, a root marker, or a normal component. -/
inductive Component where
  | curDir
  | parentDir
  | rootDir
  | normal (s : String)
deriving DecidableEq, Repr

/-- Per-path normalization step of `into_normalized_mapping`
(`src/config.rs` lines 20-26): if the parsed path starts with the
current-directory component it is stripped (`path.strip_prefix(CurDir)`),
otherwise the path is returned unchanged. -/
def normalize_mapping (path : List Component) : List Component :=
  if [Component.curDir].isPrefixOf path then path.drop 1 else path

/-- Embedding of the custom serde deserializer `into_normalized_mapping`
(`src/config.rs` lines 14-30), applied to the already-parsed component
lists of the incoming mapping strings.  The TOML text layer itself is an
opaque serialize/deserialize boundary (spec sections 1 and 6); rendering a
parsed relative path and re-parsing it yields the same component list, so
the content of the round trip is exactly this normalization pass. -/
def into_normalized_mapping (input : List (List Component)) : List (List Component) :=
  input.map normalize_mapping

/-! ## Validation of nested mappings (claim C1) -/

theorem check_adjacent_ok_iff (l : List PathBuf) :
    check_adjacent l = Except.ok () ↔ List.Chain' (fun a b => ¬ (a <+: b)) l := by
  induction l with
  | nil => simp [check_adjacent]
  | cons a t ih =>
    cases t with
    | nil => simp [check_adjacent]
    | cons b rest =>
      rw [check_adjacent, List.chain'_cons]
      by_cases h : a.isPrefixOf b = true
      · simp only [if_pos h]
        rw [isPrefixOf_eq_true_iff] at h
        simp [h]
      · simp only [if_neg h]
        rw [isPrefixOf_eq_true_iff] at h
        rw [ih]
        simp [h]

theorem check_adjacent_error {l : List PathBuf} {c p : PathBuf}
    (h : check_adjacent l = Except.error (AppError.configNestedLinks c p)) :
    p <+: c ∧ List.Sublist [p, c] l := by
  induction l with
  | nil => simp [check_adjacent] at h
  | cons a t ih =>
    cases t with
    | nil => simp [check_adjacent] at h
    | cons b rest =>
      rw [check_adjacent] at h
      by_cases hab : a.isPrefixOf b = true
      · rw [if_pos hab] at h
        obtain ⟨rfl, rfl⟩ : c = b ∧ p = a := by
          constructor
          · exact ((AppError.configNestedLinks.injEq .. ▸ (Except.error.injEq .. ▸ h)).1).symm
          · exact ((AppError.configNestedLinks.injEq .. ▸ (Except.error.injEq .. ▸ h)).2).symm
        refine ⟨(isPrefixOf_eq_true_iff ..).mp hab, ?_⟩
        exact (List.cons_sublist_cons.mpr (List.cons_sublist_cons.mpr (List.nil_sublist rest)))
      · rw [if_neg hab] at h
        obtain ⟨hpre, hsub⟩ := ih h
        exact ⟨hpre, hsub.trans (List.sublist_cons_self a (b :: rest))⟩

/-- In a sorted list whose adjacent pairs are nesting-free, all pairs are
nesting-free: the heart of the O(n log n) to O(n^2) equivalence. -/
theorem pairwise_of_sorted_chain {l : List PathBuf}
    (hs : List.Sorted pathLeP l) (hc : List.Chain' (fun a b => ¬ (a <+: b)) l) :
    List.Pairwise (fun a b => ¬ (a <+: b)) l := by
  induction l with
  | nil => exact List.Pairwise.nil
  | cons a t ih =>
    rw [List.sorted_cons] at hs
    obtain ⟨ha, hs'⟩ := hs
    cases t with
    | nil => simp
    | cons b rest =>
      rw [List.chain'_cons] at hc
      obtain ⟨hab, hc'⟩ := hc
      refine List.Pairwise.cons ?_ (ih hs' hc')
      intro x hx hax
      rcases List.mem_cons.mp hx with rfl | hx'
      · exact hab hax
      · have hbx : pathLeP b x := (List.sorted_cons.mp hs').1 x hx'
        exact hab (isPrefix_of_between (ha b (List.mem_cons_self b rest)) hbx hax)

/-- Strengthening to the symmetric no-nesting relation: in a sorted list a
backwards prefix pair would force equality, which the forwards direction
already rules out. -/
theorem pairwise_symm_of_sorted {l : List PathBuf}
    (hs : List.Sorted pathLeP l) (hp : List.Pairwise (fun a b => ¬ (a <+: b)) l) :
    List.Pairwise (fun a b => ¬ (a <+: b) ∧ ¬ (b <+: a)) l := by
  have hand := hp.and hs
  refine hand.imp ?_
  rintro a b ⟨hnab, hle⟩
  refine ⟨hnab, fun hba => ?_⟩
  have : b = a := pathLe_antisymm (pathLe_of_isPrefix hba) hle
  subst this
  exact hnab List.prefix_rfl

theorem exists_two_get_of_sublist {l : List PathBuf} {a : PathBuf}
    (h : List.Sublist [a, a] l) :
    ∃ i j : Fin l.length, i ≠ j ∧ l.get i = a ∧ l.get j = a := by
  induction l with
  | nil => simp at h
  | cons x t ih =>
    cases h with
    | cons _ h' =>
      obtain ⟨i, j, hij, hi, hj⟩ := ih h'
      refine ⟨⟨i.1 + 1, by simpa using Nat.succ_lt_succ i.2⟩,
              ⟨j.1 + 1, by simpa using Nat.succ_lt_succ j.2⟩, ?_, by simpa using hi,
              by simpa using hj⟩
      intro hcon
      have : i.1 = j.1 := by
        have := congrArg Fin.val hcon
        simpa using this
      exact hij (Fin.ext this)
    | cons₂ _ h' =>
      have hmem : a ∈ t := h'.subset (by simp)
      obtain ⟨k, hk⟩ := List.get_of_mem hmem
      refine ⟨⟨0, by simp⟩, ⟨k.1 + 1, by simpa using Nat.succ_lt_succ k.2⟩, ?_, rfl, ?_⟩
      · intro hcon
        exact absurd (congrArg Fin.val hcon) (by simp)
      · simpa using hk

theorem validate_error_spec (ms : List PathBuf) (c p : PathBuf)
    (h : validate_nested_mappings ms = Except.error (AppError.configNestedLinks c p)) :
    p <+: c ∧ ∃ i j : Fin ms.length, i ≠ j ∧ ms.get i = p ∧ ms.get j = c := by
  rw [validate_nested_mappings] at h
  by_cases hlen : ms.length = 0
  · rw [if_pos hlen] at h
    exact absurd h (by simp)
  · rw [if_neg hlen] at h
    obtain ⟨hpre, hsub⟩ := check_adjacent_error h
    have hperm : List.Perm (sortPaths ms) ms := List.perm_insertionSort pathLeP ms
    refine ⟨hpre, ?_⟩
    by_cases hpc : p = c
    · subst hpc
      have hdup : List.Duplicate p (sortPaths ms) := List.duplicate_iff_sublist.mpr hsub
      have hcount := List.duplicate_iff_two_le_count.mp hdup
      have hdupms : List.Duplicate p ms :=
        List.duplicate_iff_two_le_count.mpr (le_of_le_of_eq hcount (hperm.count_eq p))
      exact exists_two_get_of_sublist (List.duplicate_iff_sublist.mp hdupms)
    · have hpm : p ∈ ms := hperm.mem_iff.mp (hsub.subset (by simp))
      have hcm : c ∈ ms := hperm.mem_iff.mp (hsub.subset (by simp))
      obtain ⟨i, hi⟩ := List.get_of_mem hpm
      obtain ⟨j, hj⟩ := List.get_of_mem hcm
      refine ⟨i, j, ?_, hi, hj⟩
      intro hcon
      subst hcon
      exact hpc (hi ▸ hj ▸ rfl)

theorem validate_ok_pairwise (ms : List PathBuf)
    (h : validate_nested_mappings ms = Except.ok ()) :
    ∀ i j : Fin ms.length, i ≠ j → ¬ (ms.get i <+: ms.get j) := by
  rw [validate_nested_mappings] at h
  by_cases hlen : ms.length = 0
  · intro i
    exact absurd i.2 (by omega)
  · rw [if_neg hlen] at h
    have hchain := (check_adjacent_ok_iff _).mp h
    have hsorted : List.Sorted pathLeP (sortPaths ms) :=
      List.sorted_insertionSort pathLeP ms
    have hpw := pairwise_symm_of_sorted hsorted (pairwise_of_sorted_chain hsorted hchain)
    have hperm : List.Perm (sortPaths ms) ms := List.perm_insertionSort pathLeP ms
    have hpwms : List.Pairwise (fun a b => ¬ (a <+: b) ∧ ¬ (b <+: a)) ms :=
      (hperm.pairwise_iff (fun hxy => ⟨hxy.2, hxy.1⟩)).mp hpw
    rw [List.pairwise_iff_get] at hpwms
    intro i j hij
    rcases lt_or_gt_of_ne (fun hc : i.1 = j.1 => hij (Fin.ext hc)) with hlt | hgt
    · exact (hpwms i j hlt).1
    · exact (hpwms j i hgt).2

theorem pairwise_validate_ok (ms : List PathBuf)
    (h : ∀ i j : Fin ms.length, i ≠ j → ¬ (ms.get i <+: ms.get j)) :
    validate_nested_mappings ms = Except.ok () := by
  match hv : validate_nested_mappings ms with
  | Except.ok u => cases u; rfl
  | Except.error e =>
    cases e with
    | configNestedLinks c p =>
      obtain ⟨hpre, i, j, hij, hi, hj⟩ := validate_error_spec ms c p hv
      exact absurd (hi ▸ hj ▸ hpre) (h i j hij)

/-- C1: `validate_nested_mappings` succeeds exactly on mapping lists in
which no element (at one position) is a component-prefix of the element at
any other position, and whenever it fails the reported
`ConfigNestedLinks(nested, parent)` is a genuinely nested pair: the parent
is a prefix of the nested path and both occur at distinct positions of the
input, regardless of the input's order.  The sorted adjacent-pair scan is
thereby equivalent to the all-pairs check. -/
theorem validate_nested_mappings_correct (ms : List PathBuf) :
    (validate_nested_mappings ms = Except.ok () ↔
      ∀ i j : Fin ms.length, i ≠ j → ¬ (ms.get i <+: ms.get j))
    ∧ ∀ c p, validate_nested_mappings ms = Except.error (AppError.configNestedLinks c p) →
        p <+: c ∧ ∃ i j : Fin ms.length, i ≠ j ∧ ms.get i = p ∧ ms.get j = c :=
  ⟨⟨validate_ok_pairwise ms, pairwise_validate_ok ms⟩,
   fun c p h => validate_error_spec ms c p h⟩

theorem validate_nested_mappings_correct_witness :
    (["a"] : PathBuf) <+: ["a", "x"] ∧
      ∃ i j : Fin ([["b"], ["a"], ["a", "x"]] : List PathBuf).length,
        i ≠ j ∧ ([["b"], ["a"], ["a", "x"]] : List PathBuf).get i = ["a"] ∧
          ([["b"], ["a"], ["a", "x"]] : List PathBuf).get j = ["a", "x"] :=
  (validate_nested_mappings_correct [["b"], ["a"], ["a", "x"]]).2 ["a", "x"] ["a"] rfl

/-! ## Normalizing deserializer (claim C9) -/

theorem normalize_mapping_cons_curDir (rest : List Component) :
    normalize_mapping (Component.curDir :: rest) = rest := by
  simp [normalize_mapping, List.isPrefixOf]

theorem normalize_mapping_of_not {p : List Component}
    (h : [Component.curDir].isPrefixOf p = false) : normalize_mapping p = p := by
  simp [normalize_mapping, h]

/-- C9: on a mapping list whose paths carry no leading current-directory
component, `into_normalized_mapping` is the identity — so deserializing what
`to_config_file` serialized reproduces the mapping list element-wise — and
any input differing from it only by leading `./` components on some
mappings deserializes to the very same list. -/
theorem into_normalized_mapping_round_trip (ms ms2 : List (List Component))
    (hnorm : ∀ p ∈ ms, [Component.curDir].isPrefixOf p = false) :
    into_normalized_mapping ms = ms ∧
      (List.Forall₂ (fun p q => q = p ∨ q = Component.curDir :: p) ms ms2 →
        into_normalized_mapping ms2 = ms) := by
  constructor
  · rw [into_normalized_mapping]
    induction ms with
    | nil => rfl
    | cons p t ih =>
      rw [List.map_cons]
      rw [normalize_mapping_of_not (hnorm p (List.mem_cons_self p t))]
      rw [ih (fun q hq => hnorm q (List.mem_cons_of_mem p hq))]
  · intro hrel
    rw [into_normalized_mapping]
    induction hrel with
    | nil => rfl
    | cons hpq _ ih =>
      rename_i p q tp tq _
      rw [List.map_cons]
      have hp : [Component.curDir].isPrefixOf p = false :=
        hnorm p (List.mem_cons_self p tp)
      have htl : List.map normalize_mapping tq = tp :=
        ih (fun r hr => hnorm r (List.mem_cons_of_mem p hr))
      rcases hpq with rfl | rfl
      · rw [normalize_mapping_of_not hp, htl]
      · rw [normalize_mapping_cons_curDir, htl]

theorem into_normalized_mapping_round_trip_witness :
    into_normalized_mapping [[Component.curDir, Component.normal ".config"]] =
      [[Component.normal ".config"]] :=
  (into_normalized_mapping_round_trip [[Component.normal ".config"]]
      [[Component.curDir, Component.normal ".config"]] (by decide)).2
    (List.Forall₂.cons (Or.inr rfl) List.Forall₂.nil)

/-! ## `src/commands/status.rs`: tree walker and state classifier -/

/-- Embedding of `DotfilesEntryState` (`src/commands/status.rs`). -/
inductive DotfilesEntryState where
  | mapped
  | unmapped
  | invalid
deriving DecidableEq, Repr

/-- Embedding of `DotfilesEntry = (PathBuf, DotfilesEntryState)`. -/
abbrev DotfilesEntry := PathBuf × DotfilesEntryState

/-- The repository directory tree seen by the walker through `read_dir` and
`symlink_metadata().is_dir()`: a `leaf` is a file or a symlink (for which
no-follow metadata reports "not a directory", so the walker never descends
into it), a `dir` is a real directory with its named children. -/
inductive FsTree where
  | leaf : FsTree
  | dir (children : List (String × FsTree)) : FsTree

/-- Number of nodes of a tree; termination measure for the traversal. -/
def treeSize : FsTree → Nat
  | FsTree.leaf => 1
  | FsTree.dir [] => 1
  | FsTree.dir ((_, t) :: rest) => treeSize t + treeSize (FsTree.dir rest)
decreasing_by
  · simp only [FsTree.dir.sizeOf_spec, List.cons.sizeOf_spec, Prod.mk.sizeOf_spec]
    omega
  · simp only [FsTree.dir.sizeOf_spec, List.cons.sizeOf_spec, Prod.mk.sizeOf_spec]
    omega

theorem treeSize_pos (t : FsTree) : 0 < treeSize t := by
  cases t with
  | leaf => simp [treeSize]
  | dir cs =>
    induction cs with
    | nil => simp [treeSize]
    | cons c rest ih =>
      obtain ⟨n, t⟩ := c
      rw [treeSize]
      omega

/-- Total tree size of the trees held in a walker queue; the termination
measure of the breadth-first traversal. -/
def queueMeasure : List (PathBuf × FsTree) → Nat
  | [] => 0
  | (_, t) :: rest => treeSize t + queueMeasure rest

theorem queueMeasure_append (q r : List (PathBuf × FsTree)) :
    queueMeasure (q ++ r) = queueMeasure q + queueMeasure r := by
  induction q with
  | nil => simp [queueMeasure]
  | cons x rest ih =>
    obtain ⟨p, t⟩ := x
    simp only [List.cons_append, queueMeasure]
    rw [List.append_eq, ih]
    omega

theorem queueMeasure_children (rel : PathBuf) (cs : List (String × FsTree)) :
    queueMeasure (cs.map fun nc => (rel ++ [nc.1], nc.2)) < treeSize (FsTree.dir cs) := by
  induction cs with
  | nil => simp [queueMeasure, treeSize]
  | cons c rest ih =>
    obtain ⟨n, t⟩ := c
    simp only [List.map_cons, queueMeasure] at ih ⊢
    rw [treeSize]
    omega

theorem queueMeasure_pop (rel : PathBuf) (t : FsTree) (rest : List (PathBuf × FsTree)) :
    queueMeasure rest < queueMeasure ((rel, t) :: rest) := by
  have := treeSize_pos t
  simp only [queueMeasure]
  omega

theorem queueMeasure_step (rest : List (PathBuf × FsTree)) (rel : PathBuf)
    (cs : List (String × FsTree)) :
    queueMeasure (rest ++ cs.map fun nc => (rel ++ [nc.1], nc.2)) <
      queueMeasure ((rel, FsTree.dir cs) :: rest) := by
  have := queueMeasure_children rel cs
  simp only [queueMeasure, queueMeasure_append]
  omega

/-- The queue loop of `get_dotfiles_entries` (`src/commands/status.rs`
lines 127-144).  Each queue element carries the repository-relative path of
the entry (`path.strip_prefix(dotfile_root)`) and its subtree.  If the
entry is itself mapped it is emitted as `Mapped` and not traversed; if no
mapping starts with it, it is emitted as `Unmapped` and not traversed;
otherwise, if (and only if) its no-follow metadata says it is a directory,
its children are appended to the back of the queue. -/
def walk (mappings : List PathBuf) : List (PathBuf × FsTree) → List DotfilesEntry
  | [] => []
  | (rel, t) :: rest =>
    if mappings.contains rel then
      (rel, DotfilesEntryState.mapped) :: walk mappings rest
    else if (mappings.any fun m => rel.isPrefixOf m) = false then
      (rel, DotfilesEntryState.unmapped) :: walk mappings rest
    else
      match t with
      | FsTree.leaf => walk mappings rest
      | FsTree.dir cs => walk mappings (rest ++ cs.map fun nc => (rel ++ [nc.1], nc.2))
termination_by q => queueMeasure q
decreasing_by
  · exact queueMeasure_pop _ _ _
  · exact queueMeasure_pop _ _ _
  · exact queueMeasure_pop _ _ _
  · exact queueMeasure_step _ _ _

/-- The initial queue of the traversal: the immediate children of the
repository root (`fs::read_dir(dotfile_root)`), tagged with their
single-component relative paths. -/
def initQueue : FsTree → List (PathBuf × FsTree)
  | FsTree.leaf => []
  | FsTree.dir cs => cs.map fun nc => ([nc.1], nc.2)

/-- Ordering of entries used by `dotfiles.sort_by(|a, b| a.0.cmp(&b.0))`:
compare the relative paths only. -/
def entryLeP (a b : DotfilesEntry) : Prop := pathLe a.1 b.1 = true

instance : DecidableRel entryLeP := fun a b => inferInstanceAs (Decidable (pathLe a.1 b.1 = true))
instance : IsTotal DotfilesEntry entryLeP := ⟨fun a b => pathLe_total a.1 b.1⟩
instance : IsTrans DotfilesEntry entryLeP := ⟨fun _ _ _ => pathLe_trans⟩

/-- Embedding of `dotfiles.sort_by(...)`: sort discovered entries by
relative path.  Sorted-by-path permutations agree up to the relative order
of equal-path entries, which a directory tree with distinct child names per
directory never produces. -/
def sortEntries (l : List DotfilesEntry) : List DotfilesEntry :=
  List.insertionSort entryLeP l

/-- One step of the `Invalid` synthesis loop (`src/commands/status.rs`
lines 150-155): `binary_search_by` on the sorted list finds an entry with
the mapping's path exactly when one is present; on `Err(pos)` the mapping
is inserted at `pos`, the unique position keeping the list sorted. -/
def insertMapping (l : List DotfilesEntry) (m : PathBuf) : List DotfilesEntry :=
  if l.any fun e => e.1 == m then l
  else List.orderedInsert entryLeP (m, DotfilesEntryState.invalid) l

/-- Embedding of `get_dotfiles_entries` (`src/commands/status.rs` lines
118-158): walk the repository tree from the root's children, sort the
discovered entries by relative path, then insert every configured mapping
that was not discovered as an `Invalid` entry at its sorted position. -/
def get_dotfiles_entries (root : FsTree) (mappings : List PathBuf) : List DotfilesEntry :=
  mappings.foldl insertMapping (sortEntries (walk mappings (initQueue root)))

/-- Embedding of `LinkState` (`src/commands/status.rs`). -/
inductive LinkState where
  | invalid (expected : PathBuf)
  | linked
  | unlinked
  | conflictWrongTarget (actual : PathBuf)
  | conflictNoLink (actual : PathBuf)
  | unmapped
deriving DecidableEq, Repr

/-- The filesystem observations used by the state classifier and the change
planner, as total functions on absolute paths:
`pathExists p` is `p.exists()` (which follows symlinks, so it is `false` on
a dangling symlink); `isSymlink p` is
`p.symlink_metadata().file_type().is_symlink()` (no-follow); `readLink p`
is `fs::read_link(p)`, the literal stored target of the symlink (only
meaningful when `isSymlink p` holds). -/
structure FsView where
  pathExists : PathBuf → Bool
  isSymlink : PathBuf → Bool
  readLink : PathBuf → PathBuf

/-- Embedding of `get_dotfiles_entry_state` (`src/commands/status.rs` lines
177-212).  `target_dir` is the home directory; `path.join` on an absolute
base and a relative path is component concatenation. -/
def get_dotfiles_entry_state (dotfiles_root : PathBuf) (entry : DotfilesEntry)
    (target_dir : PathBuf) (fs : FsView) : LinkState :=
  let path := entry.1
  let actual_file_path := target_dir ++ path
  let expected_target := dotfiles_root ++ path
  match entry.2 with
  | DotfilesEntryState.invalid => LinkState.invalid expected_target
  | DotfilesEntryState.unmapped => LinkState.unmapped
  | DotfilesEntryState.mapped =>
    if fs.pathExists actual_file_path = false then
      LinkState.unlinked
    else if fs.isSymlink actual_file_path = false then
      LinkState.conflictNoLink actual_file_path
    else if fs.readLink actual_file_path ≠ expected_target then
      LinkState.conflictWrongTarget (fs.readLink actual_file_path)
    else
      LinkState.linked

/-! ## `src/commands/add.rs`: change planner -/

namespace add

/-- Embedding of the `add` sub-command error enum (`src/commands/add.rs`
lines 36-49), with the payloads the code constructs:
`OutsideValidDir(path)`, `BothPathsExist(dotfiles_path, homedir_path)`,
`ExistingParent(mappings_path, mapping)` and
`ExistingChild(mappings_path, mapping)`. -/
inductive Error where
  | outsideValidDir (path : PathBuf)
  | bothPathsExist (dotfiles home : PathBuf)
  | existingParent (path mapping : PathBuf)
  | existingChild (path mapping : PathBuf)
deriving DecidableEq, Repr

end add

/-- Embedding of `RequiredChanges` (`src/commands/add.rs` lines 27-31). -/
inductive RequiredChanges where
  | addMapping (path : PathBuf)
  | createSymlink (source target : PathBuf)
  | moveFile (source target : PathBuf)
deriving DecidableEq, Repr

/-- The candidate-classification step of `get_required_changes`
(`src/commands/add.rs` lines 160-173): a path under the dotfiles root is
classified as in-dotfiles (taking precedence even when the dotfiles root
lies under the home directory), otherwise a path under the home root is
in-home, otherwise the classification fails with `OutsideValidDir`.  The
mapping-relative path strips exactly the root prefix that matched
(`strip_prefix`, i.e. dropping that many leading components). -/
def get_mappings_path (dotfiles_root home_dir path : PathBuf) : Except add.Error PathBuf :=
  if dotfiles_root.isPrefixOf path then
    Except.ok (path.drop dotfiles_root.length)
  else if home_dir.isPrefixOf path then
    Except.ok (path.drop home_dir.length)
  else
    Except.error (add.Error.outsideValidDir path)

/-- The nesting pre-check loop of `get_required_changes`
(`src/commands/add.rs` lines 186-198): scan the existing mappings in order;
if a mapping extends the candidate, return `ExistingParent(candidate,
mapping)`; if the candidate extends a mapping, return
`ExistingChild(candidate, mapping)`. -/
def check_nested (mappings_path : PathBuf) : List PathBuf → Except add.Error Unit
  | [] => Except.ok ()
  | mapping :: rest =>
    if mappings_path.isPrefixOf mapping then
      Except.error (add.Error.existingParent mappings_path mapping)
    else if mapping.isPrefixOf mappings_path then
      Except.error (add.Error.existingChild mappings_path mapping)
    else
      check_nested mappings_path rest

/-- The reconciliation step of `get_required_changes`
(`src/commands/add.rs` lines 202-227): if the candidate exists on both
sides, either the home side is a symlink whose stored target is exactly the
repository-side path (then linking is skippable) or the operation fails
with `BothPathsExist`; otherwise a `MoveFile` is emitted when only the home
side exists, and a `CreateSymlink` is always emitted last. -/
def reconcile (changes : List RequiredChanges) (skipped : List String)
    (homedir_path dotfiles_path : PathBuf) (fs : FsView) :
    Except add.Error (List RequiredChanges × List String) :=
  if fs.pathExists homedir_path && fs.pathExists dotfiles_path then
    if fs.isSymlink homedir_path && (fs.readLink homedir_path == dotfiles_path) then
      Except.ok (changes, skipped ++ ["no symlink will be created, paths are already linked."])
    else
      Except.error (add.Error.bothPathsExist dotfiles_path homedir_path)
  else
    let changes2 :=
      if fs.pathExists homedir_path then
        changes ++ [RequiredChanges.moveFile homedir_path dotfiles_path]
      else changes
    Except.ok (changes2 ++ [RequiredChanges.createSymlink homedir_path dotfiles_path], skipped)

/-- Embedding of `get_required_changes` (`src/commands/add.rs` lines
154-230).  The returned pair is `(changes, skipped)`; `join` of a root and
the relative mapping path is component concatenation.  The planner is a
pure function into `Except`: on an error no `RequiredChanges` value is
produced and nothing is mutated. -/
def get_required_changes (mappings : List PathBuf)
    (dotfiles_root home_dir path : PathBuf) (fs : FsView) :
    Except add.Error (List RequiredChanges × List String) := do
  let mappings_path ← get_mappings_path dotfiles_root home_dir path
  let homedir_path := home_dir ++ mappings_path
  let dotfiles_path := dotfiles_root ++ mappings_path
  let (changes, skipped) ←
    if mappings.contains mappings_path then
      Except.ok (([] : List RequiredChanges),
        ["This path is already mapped, no need to update config."])
    else do
      let _ ← check_nested mappings_path mappings
      Except.ok ([RequiredChanges.addMapping mappings_path], ([] : List String))
  reconcile changes skipped homedir_path dotfiles_path fs

/-! ## Claims C2 and C10: state classifier -/

/-- C2: for a `Mapped` entry whose home-side path exists and is a symlink,
the classifier answers `Linked` exactly when the literal stored target read
by `read_link` equals the expected absolute repository path (the repository
root joined with the entry's relative path), and otherwise answers
`ConflictWrongTarget` carrying the actual stored target.  The comparison is
plain component equality of the stored target — the model has no notion of
further symlink resolution, so a textually different but equivalent target
is still a conflict. -/
theorem get_dotfiles_entry_state_symlink_cases (d home p : PathBuf) (fs : FsView)
    (hex : fs.pathExists (home ++ p) = true)
    (hsym : fs.isSymlink (home ++ p) = true) :
    (get_dotfiles_entry_state d (p, DotfilesEntryState.mapped) home fs = LinkState.linked ↔
      fs.readLink (home ++ p) = d ++ p) ∧
    (fs.readLink (home ++ p) ≠ d ++ p →
      get_dotfiles_entry_state d (p, DotfilesEntryState.mapped) home fs =
        LinkState.conflictWrongTarget (fs.readLink (home ++ p))) := by
  by_cases h : fs.readLink (home ++ p) = d ++ p
  · refine ⟨?_, fun hne => absurd h hne⟩
    simp [get_dotfiles_entry_state, hex, hsym, h]
  · refine ⟨?_, fun _ => ?_⟩
    · simp [get_dotfiles_entry_state, hex, hsym, h]
    · simp [get_dotfiles_entry_state, hex, hsym, h]

theorem get_dotfiles_entry_state_symlink_cases_witness :
    get_dotfiles_entry_state ["repo"] ((["f"], DotfilesEntryState.mapped) : DotfilesEntry)
      ["home"] ⟨fun _ => true, fun _ => true, fun _ => ["other"]⟩ =
      LinkState.conflictWrongTarget ["other"] :=
  (get_dotfiles_entry_state_symlink_cases ["repo"] ["home"] ["f"]
      ⟨fun _ => true, fun _ => true, fun _ => ["other"]⟩ rfl rfl).2 (by decide)

/-- C10: for a `Mapped` entry whose home-side path is a dangling symlink —
`symlink_metadata` reports a symlink but `exists()`, which follows
symlinks, reports `false` — the classifier answers `Unlinked`, not a
conflict variant, because the follow-semantics existence test comes first
and neither the symlink-ness nor the stored target is ever inspected. -/
theorem get_dotfiles_entry_state_dangling (d home p : PathBuf) (fs : FsView)
    (hex : fs.pathExists (home ++ p) = false)
    (hsym : fs.isSymlink (home ++ p) = true) :
    get_dotfiles_entry_state d (p, DotfilesEntryState.mapped) home fs = LinkState.unlinked := by
  simp [get_dotfiles_entry_state, hex]

theorem get_dotfiles_entry_state_dangling_witness :
    get_dotfiles_entry_state ["repo"] ((["f"], DotfilesEntryState.mapped) : DotfilesEntry)
      ["home"] ⟨fun _ => false, fun _ => true, fun _ => ["elsewhere"]⟩ =
      LinkState.unlinked :=
  get_dotfiles_entry_state_dangling ["repo"] ["home"] ["f"]
    ⟨fun _ => false, fun _ => true, fun _ => ["elsewhere"]⟩ rfl rfl

/-! ## Claims C8, C7, C6, C3: change planner -/

theorem contains_iff_mem {l : List PathBuf} {a : PathBuf} : l.contains a = true ↔ a ∈ l := by
  simp [List.contains]

theorem except_bind_error {ε α β : Type} (e : ε) (f : α → Except ε β) :
    (Except.error e >>= f) = Except.error e := rfl

theorem except_bind_ok {ε α β : Type} (a : α) (f : α → Except ε β) :
    (Except.ok a >>= f) = f a := rfl

/-- C8: candidate classification.  A candidate under the repository root is
always classified as in-dotfiles and its mapping-relative path strips
exactly the repository-root prefix — with no hypothesis about the home
root, so this precedence holds in particular when the repository root lies
under the home directory and the candidate is under both.  A candidate
under only the home root strips exactly the home prefix, and a candidate
under neither root makes the planner fail with `OutsideValidDir`. -/
theorem path_classification_correct (mappings : List PathBuf)
    (d h path : PathBuf) (fs : FsView) :
    (d.isPrefixOf path = true →
      get_mappings_path d h path = Except.ok (path.drop d.length)) ∧
    (d.isPrefixOf path = false → h.isPrefixOf path = true →
      get_mappings_path d h path = Except.ok (path.drop h.length)) ∧
    (d.isPrefixOf path = false → h.isPrefixOf path = false →
      get_required_changes mappings d h path fs =
        Except.error (add.Error.outsideValidDir path)) := by
  refine ⟨fun h1 => ?_, fun h1 h2 => ?_, fun h1 h2 => ?_⟩
  · simp [get_mappings_path, h1]
  · simp [get_mappings_path, h1, h2]
  · simp [get_required_changes, get_mappings_path, h1, h2, except_bind_error]

theorem path_classification_correct_witness :
    get_mappings_path ["h", "repo"] ["h"] ["h", "repo", "f"] = Except.ok ["f"] :=
  (path_classification_correct [] ["h", "repo"] ["h"] ["h", "repo", "f"]
      ⟨fun _ => false, fun _ => false, fun _ => []⟩).1 rfl

theorem check_nested_ok_of_no_rel {c : PathBuf} {ms : List PathBuf}
    (h : ∀ m ∈ ms, ¬ (c <+: m) ∧ ¬ (m <+: c)) :
    check_nested c ms = Except.ok () := by
  induction ms with
  | nil => rfl
  | cons x rest ih =>
    obtain ⟨h1, h2⟩ := h x (List.mem_cons_self x rest)
    have hb1 : ¬ (c.isPrefixOf x = true) := by
      rw [isPrefixOf_eq_true_iff]; exact h1
    have hb2 : ¬ (x.isPrefixOf c = true) := by
      rw [isPrefixOf_eq_true_iff]; exact h2
    rw [check_nested, if_neg hb1, if_neg hb2]
    exact ih (fun m hm => h m (List.mem_cons_of_mem x hm))

theorem get_required_changes_eq_mapped (mappings : List PathBuf)
    (d h path c : PathBuf) (fs : FsView)
    (hmp : get_mappings_path d h path = Except.ok c)
    (hc : c ∈ mappings) :
    get_required_changes mappings d h path fs =
      reconcile [] ["This path is already mapped, no need to update config."]
        (h ++ c) (d ++ c) fs := by
  simp [get_required_changes, hmp, except_bind_ok, hc]

theorem get_required_changes_eq_new (mappings : List PathBuf)
    (d h path c : PathBuf) (fs : FsView)
    (hmp : get_mappings_path d h path = Except.ok c)
    (hc : c ∉ mappings)
    (hn : check_nested c mappings = Except.ok ()) :
    get_required_changes mappings d h path fs =
      reconcile [RequiredChanges.addMapping c] [] (h ++ c) (d ++ c) fs := by
  simp [get_required_changes, hmp, except_bind_ok, hc, hn]

theorem get_required_changes_eq_nested_error (mappings : List PathBuf)
    (d h path c : PathBuf) (fs : FsView) (e : add.Error)
    (hmp : get_mappings_path d h path = Except.ok c)
    (hc : c ∉ mappings)
    (hn : check_nested c mappings = Except.error e) :
    get_required_changes mappings d h path fs = Except.error e := by
  simp [get_required_changes, hmp, except_bind_ok, hc, hn, except_bind_error]

theorem reconcile_both_exist_iff (ch : List RequiredChanges) (sk : List String)
    (hp dp : PathBuf) (fs : FsView) :
    reconcile ch sk hp dp fs = Except.error (add.Error.bothPathsExist dp hp) ↔
      fs.pathExists hp = true ∧ fs.pathExists dp = true ∧
        ¬ (fs.isSymlink hp = true ∧ fs.readLink hp = dp) := by
  by_cases h1 : fs.pathExists hp = true
  · by_cases h2 : fs.pathExists dp = true
    · by_cases h3 : fs.isSymlink hp = true ∧ fs.readLink hp = dp
      · simp [reconcile, h1, h2, h3.1, h3.2, h3]
      · rw [Decidable.not_and_iff_or_not] at h3
        rcases h3 with h3 | h3
        · simp only [Bool.not_eq_true] at h3
          simp [reconcile, h1, h2, h3]
        · simp [reconcile, h1, h2, h3]
    · simp only [Bool.not_eq_true] at h2
      simp [reconcile, h1, h2]
  · simp only [Bool.not_eq_true] at h1
    simp [reconcile, h1]

/-- C7: for a candidate inside one of the two roots whose relative path
passes the nesting check (already mapped, or in no prefix relation with any
mapping), the planner returns `BothPathsExist` exactly when both the
repository-side and home-side paths exist and the home side is not a
symlink whose literal stored target is the repository-side path.  The
planner is a pure `Except` computation, so on this (or any) error no
`RequiredChanges` value is produced and nothing is mutated. -/
theorem get_required_changes_both_exist_iff (mappings : List PathBuf)
    (d h path c : PathBuf) (fs : FsView)
    (hmp : get_mappings_path d h path = Except.ok c)
    (hpass : c ∈ mappings ∨ (∀ m ∈ mappings, ¬ (c <+: m) ∧ ¬ (m <+: c))) :
    get_required_changes mappings d h path fs =
        Except.error (add.Error.bothPathsExist (d ++ c) (h ++ c)) ↔
      fs.pathExists (h ++ c) = true ∧ fs.pathExists (d ++ c) = true ∧
        ¬ (fs.isSymlink (h ++ c) = true ∧ fs.readLink (h ++ c) = d ++ c) := by
  rcases hpass with hc | hno
  · rw [get_required_changes_eq_mapped mappings d h path c fs hmp hc]
    exact reconcile_both_exist_iff _ _ _ _ fs
  · have hcnot : c ∉ mappings := fun hcin => (hno c hcin).1 List.prefix_rfl
    rw [get_required_changes_eq_new mappings d h path c fs hmp hcnot
      (check_nested_ok_of_no_rel hno)]
    exact reconcile_both_exist_iff _ _ _ _ fs

theorem get_required_changes_both_exist_iff_witness :
    get_required_changes [] ["d"] ["h"] ["h", "f"]
      ⟨fun _ => true, fun _ => false, fun _ => []⟩ =
      Except.error (add.Error.bothPathsExist ["d", "f"] ["h", "f"]) :=
  (get_required_changes_both_exist_iff [] ["d"] ["h"] ["h", "f"] ["f"]
      ⟨fun _ => true, fun _ => false, fun _ => []⟩ rfl
      (Or.inr (by simp))).mpr ⟨rfl, rfl, by simp⟩

/-- C6: for a candidate under the home root only, unmapped and in no prefix
relation with any existing mapping, with the home-side path existing and
the repository-side path absent, the planner succeeds with exactly the plan
`[AddMapping, MoveFile, CreateSymlink]` in that order (so `MoveFile`
strictly precedes `CreateSymlink`), and nothing is skippable. -/
theorem get_required_changes_home_only (mappings : List PathBuf)
    (d h path c : PathBuf) (fs : FsView)
    (hnd : d.isPrefixOf path = false)
    (hpath : path = h ++ c)
    (hno : ∀ m ∈ mappings, ¬ (c <+: m) ∧ ¬ (m <+: c))
    (hex_home : fs.pathExists (h ++ c) = true)
    (hex_repo : fs.pathExists (d ++ c) = false) :
    get_required_changes mappings d h path fs =
      Except.ok ([RequiredChanges.addMapping c,
        RequiredChanges.moveFile (h ++ c) (d ++ c),
        RequiredChanges.createSymlink (h ++ c) (d ++ c)], []) := by
  have hmp : get_mappings_path d h path = Except.ok c := by
    subst hpath
    have hh : h.isPrefixOf (h ++ c) = true := (isPrefixOf_eq_true_iff h (h ++ c)).mpr ⟨c, rfl⟩
    simp [get_mappings_path, hnd, hh, List.drop_left]
  have hcnot : c ∉ mappings := fun hcin => (hno c hcin).1 List.prefix_rfl
  rw [get_required_changes_eq_new mappings d h path c fs hmp hcnot
    (check_nested_ok_of_no_rel hno)]
  simp [reconcile, hex_home, hex_repo]

theorem get_required_changes_home_only_witness :
    get_required_changes [] ["d"] ["h"] ["h", "f"]
      ⟨fun q => q == ["h", "f"], fun _ => false, fun _ => []⟩ =
      Except.ok ([RequiredChanges.addMapping ["f"],
        RequiredChanges.moveFile ["h", "f"] ["d", "f"],
        RequiredChanges.createSymlink ["h", "f"] ["d", "f"]], []) :=
  get_required_changes_home_only [] ["d"] ["h"] ["h", "f"] ["f"]
    ⟨fun q => q == ["h", "f"], fun _ => false, fun _ => []⟩
    rfl rfl (by simp) rfl rfl

theorem check_nested_error_of_extension {c : PathBuf} {ms : List PathBuf}
    (h1 : ∀ x ∈ ms, ¬ (x <+: c)) (h2 : ∃ m ∈ ms, c <+: m) :
    ∃ m ∈ ms, c <+: m ∧ check_nested c ms = Except.error (add.Error.existingParent c m) := by
  induction ms with
  | nil =>
    obtain ⟨m, hm, _⟩ := h2
    exact absurd hm (List.not_mem_nil m)
  | cons x rest ih =>
    by_cases hx : c.isPrefixOf x = true
    · exact ⟨x, List.mem_cons_self x rest, (isPrefixOf_eq_true_iff c x).mp hx, by
        rw [check_nested, if_pos hx]⟩
    · have hx2 : ¬ (x.isPrefixOf c = true) := by
        rw [isPrefixOf_eq_true_iff]
        exact h1 x (List.mem_cons_self x rest)
      obtain ⟨m, hm, hpre⟩ := h2
      have hm2 : m ∈ rest := by
        rcases List.mem_cons.mp hm with rfl | hmem
        · exact absurd ((isPrefixOf_eq_true_iff c m).mpr hpre) hx
        · exact hmem
      obtain ⟨m2, hm3, hpre2, heq⟩ :=
        ih (fun y hy => h1 y (List.mem_cons_of_mem x hy)) ⟨m, hm2, hpre⟩
      refine ⟨m2, List.mem_cons_of_mem x hm3, hpre2, ?_⟩
      rw [check_nested, if_neg hx, if_neg hx2]
      exact heq

/-- C3: for a candidate (with validated mappings) whose relative path is a
strict ancestor of some existing mapping, the planner fails before
producing any `RequiredChanges` value — but with the variant named
`ExistingParent(candidate, mapping)`, whose own doc comment in
`src/commands/add.rs` describes the opposite situation ("another mapping
exists which is a parent of the given path"); the variant named
`ExistingChild` is the one documented as "another mapping exists which is a
child of the given path", yet it is returned in the converse case.  The
user-visible `Display` text of the returned variant does describe the
actual situation correctly. -/
theorem get_required_changes_ancestor_behavior (mappings : List PathBuf)
    (d h path c : PathBuf) (fs : FsView)
    (hval : validate_nested_mappings mappings = Except.ok ())
    (hmp : get_mappings_path d h path = Except.ok c)
    (hanc : ∃ m ∈ mappings, c <+: m ∧ c ≠ m) :
    ∃ m ∈ mappings, c <+: m ∧ c ≠ m ∧
      get_required_changes mappings d h path fs =
        Except.error (add.Error.existingParent c m) := by
  have hpw := validate_ok_pairwise mappings hval
  have hcnotin : c ∉ mappings := by
    intro hcin
    obtain ⟨m, hm, hpre, hne⟩ := hanc
    obtain ⟨i, hi⟩ := List.get_of_mem hcin
    obtain ⟨j, hj⟩ := List.get_of_mem hm
    have hij : i ≠ j := fun hcon => hne (by rw [← hi, hcon, hj])
    exact hpw i j hij (by rw [hi, hj]; exact hpre)
  have hnopar : ∀ x ∈ mappings, ¬ (x <+: c) := by
    intro x hx hxc
    obtain ⟨m, hm, hpre, hne⟩ := hanc
    have hxm : x <+: m := hxc.trans hpre
    have hxnem : x ≠ m := by
      intro hcon
      subst hcon
      have hcx : c = x := pathLe_antisymm (pathLe_of_isPrefix hpre) (pathLe_of_isPrefix hxc)
      exact hcnotin (hcx ▸ hx)
    obtain ⟨i, hi⟩ := List.get_of_mem hx
    obtain ⟨j, hj⟩ := List.get_of_mem hm
    have hij : i ≠ j := fun hcon => hxnem (by rw [← hi, hcon, hj])
    exact hpw i j hij (by rw [hi, hj]; exact hxm)
  obtain ⟨m, hm, hpre, heq⟩ :=
    check_nested_error_of_extension hnopar
      (by obtain ⟨m, hm, hpre, _⟩ := hanc; exact ⟨m, hm, hpre⟩)
  refine ⟨m, hm, hpre, ?_, ?_⟩
  · intro hcon
    exact hnopar m hm (hcon ▸ List.prefix_rfl)
  · exact get_required_changes_eq_nested_error mappings d h path c fs _ hmp hcnotin heq

theorem get_required_changes_ancestor_behavior_witness :
    ∃ m ∈ [[".config", "app"]], [".config"] <+: m ∧ [".config"] ≠ m ∧
      get_required_changes [[".config", "app"]] ["d"] ["h"] ["h", ".config"]
          ⟨fun _ => false, fun _ => false, fun _ => []⟩ =
        Except.error (add.Error.existingParent [".config"] m) :=
  get_required_changes_ancestor_behavior [[".config", "app"]] ["d"] ["h"]
    ["h", ".config"] [".config"] ⟨fun _ => false, fun _ => false, fun _ => []⟩
    rfl rfl ⟨[".config", "app"], by simp, ⟨["app"], rfl⟩, by decide⟩

/-! ## Claims C4 and C5: walker pruning and Invalid synthesis -/

/-- Every entry emitted by the traversal loop is either `Mapped` with its
path in the mapping set, or `Unmapped` with its path not in the mapping
set; the loop never emits `Invalid`. -/
theorem walk_state_mem (mappings : List PathBuf) (q : List (PathBuf × FsTree))
    (p : PathBuf) (s : DotfilesEntryState) (hmem : (p, s) ∈ walk mappings q) :
    (s = DotfilesEntryState.mapped ∧ p ∈ mappings) ∨
      (s = DotfilesEntryState.unmapped ∧ p ∉ mappings) := by
  induction q using walk.induct mappings with
  | case1 => simp [walk] at hmem
  | case2 rel t rest hc ih =>
    rw [walk.eq_def] at hmem
    simp only [hc, if_true] at hmem
    rcases List.mem_cons.mp hmem with heq | hmem2
    · have h1 : p = rel := (Prod.mk.injEq .. ▸ heq).1
      have h2 : s = DotfilesEntryState.mapped := (Prod.mk.injEq .. ▸ heq).2
      exact Or.inl ⟨h2, h1 ▸ contains_iff_mem.mp hc⟩
    · exact ih hmem2
  | case3 rel t rest hc hu ih =>
    rw [walk.eq_def] at hmem
    simp only [hc, hu, if_true, if_false] at hmem
    rcases List.mem_cons.mp hmem with heq | hmem2
    · have h1 : p = rel := (Prod.mk.injEq .. ▸ heq).1
      have h2 : s = DotfilesEntryState.unmapped := (Prod.mk.injEq .. ▸ heq).2
      refine Or.inr ⟨h2, fun hpm => ?_⟩
      have hself : List.isPrefixOf rel rel = true :=
        (isPrefixOf_eq_true_iff rel rel).mpr List.prefix_rfl
      have hany : (mappings.any fun m => List.isPrefixOf rel m) = true :=
        List.any_eq_true.mpr ⟨rel, h1 ▸ hpm, hself⟩
      rw [hany] at hu
      exact absurd hu (by simp)
    · exact ih hmem2
  | case4 rel rest hc hu ih =>
    rw [walk.eq_def] at hmem
    simp only [hc, hu, if_true, if_false] at hmem
    exact ih hmem
  | case5 rel rest hc hu cs ih =>
    rw [walk.eq_def] at hmem
    simp only [hc, hu, if_true, if_false] at hmem
    exact ih hmem

/-- A component-prefix of `l ++ [a]` is a component-prefix of `l` or the
whole list. -/
theorem isPrefix_snoc_cases {D l : PathBuf} {a : String} (h : D <+: l ++ [a]) :
    D <+: l ∨ D = l ++ [a] := by
  induction D generalizing l with
  | nil => exact Or.inl List.nil_prefix
  | cons x xs ih =>
    cases l with
    | nil =>
      obtain ⟨t, ht⟩ := h
      rw [List.cons_append, List.nil_append] at ht
      have hx : x = a := (List.cons.injEq .. ▸ ht).1
      have h2 : xs ++ t = [] := (List.cons.injEq .. ▸ ht).2
      have hxs : xs = [] := (List.append_eq_nil.mp h2).1
      exact Or.inr (by rw [hx, hxs]; rfl)
    | cons y l2 =>
      obtain ⟨t, ht⟩ := h
      rw [List.cons_append, List.cons_append] at ht
      have hx : x = y := (List.cons.injEq .. ▸ ht).1
      have h2 : xs ++ t = l2 ++ [a] := (List.cons.injEq .. ▸ ht).2
      rcases ih ⟨t, h2⟩ with h3 | h3
      · obtain ⟨t2, ht2⟩ := h3
        exact Or.inl ⟨t2, by rw [hx, List.cons_append, ht2]⟩
      · exact Or.inr (by rw [hx, h3, List.cons_append])

/-- Queue invariant of claim C4: if no queue element is a strict descendant
of the mapping `D`, no emitted entry is either — a popped path equal to `D`
is claimed by the `Mapped` arm before the traversal arm can enqueue its
children, and enqueued children of other paths stay outside `D`. -/
theorem walk_no_strict_desc (mappings : List PathBuf) (D : PathBuf) (hD : D ∈ mappings)
    (q : List (PathBuf × FsTree)) :
    (∀ x ∈ q, ¬ (D <+: x.1 ∧ D ≠ x.1)) →
      ∀ p s, (p, s) ∈ walk mappings q → ¬ (D <+: p ∧ D ≠ p) := by
  induction q using walk.induct mappings with
  | case1 =>
    intro _ p s hmem
    simp [walk] at hmem
  | case2 rel t rest hc ih =>
    intro hq p s hmem
    rw [walk.eq_def] at hmem
    simp only [hc, if_true] at hmem
    rcases List.mem_cons.mp hmem with heq | hmem2
    · have h1 : p = rel := (Prod.mk.injEq .. ▸ heq).1
      exact h1 ▸ hq (rel, t) (List.mem_cons_self _ _)
    · exact ih (fun x hx => hq x (List.mem_cons_of_mem _ hx)) p s hmem2
  | case3 rel t rest hc hu ih =>
    intro hq p s hmem
    rw [walk.eq_def] at hmem
    simp only [hc, hu, if_true, if_false] at hmem
    rcases List.mem_cons.mp hmem with heq | hmem2
    · have h1 : p = rel := (Prod.mk.injEq .. ▸ heq).1
      exact h1 ▸ hq (rel, t) (List.mem_cons_self _ _)
    · exact ih (fun x hx => hq x (List.mem_cons_of_mem _ hx)) p s hmem2
  | case4 rel rest hc hu ih =>
    intro hq p s hmem
    rw [walk.eq_def] at hmem
    simp only [hc, hu, if_true, if_false] at hmem
    exact ih (fun x hx => hq x (List.mem_cons_of_mem _ hx)) p s hmem
  | case5 rel rest hc hu cs ih =>
    intro hq p s hmem
    rw [walk.eq_def] at hmem
    simp only [hc, hu, if_true, if_false] at hmem
    refine ih ?_ p s hmem
    intro x hx
    rcases List.mem_append.mp hx with hx1 | hx2
    · exact hq x (List.mem_cons_of_mem _ hx1)
    · obtain ⟨nc, hnc, rfl⟩ := List.mem_map.mp hx2
      rintro ⟨hpre, hnex⟩
      have hDrel : D <+: rel := by
        rcases isPrefix_snoc_cases hpre with h3 | h3
        · exact h3
        · exact absurd h3 hnex
      rcases eq_or_ne D rel with rfl | hDne
      · exact hc (contains_iff_mem.mpr hD)
      · exact hq (rel, FsTree.dir cs) (List.mem_cons_self _ _) ⟨hDrel, hDne⟩

theorem mem_insertMapping {l : List DotfilesEntry} {m : PathBuf} {x : DotfilesEntry}
    (h : x ∈ insertMapping l m) : x ∈ l ∨ x = (m, DotfilesEntryState.invalid) := by
  rw [insertMapping] at h
  by_cases ha : (l.any fun e => e.1 == m) = true
  · rw [if_pos ha] at h
    exact Or.inl h
  · rw [if_neg ha] at h
    rcases (List.mem_orderedInsert entryLeP).mp h with h1 | h2
    · exact Or.inr h1
    · exact Or.inl h2

theorem mem_foldl_insertMapping {ms : List PathBuf} {l : List DotfilesEntry}
    {x : DotfilesEntry} (h : x ∈ ms.foldl insertMapping l) :
    x ∈ l ∨ ∃ m ∈ ms, x = (m, DotfilesEntryState.invalid) := by
  induction ms generalizing l with
  | nil => exact Or.inl h
  | cons m rest ih =>
    rcases ih (l := insertMapping l m) h with h1 | h2
    · rcases mem_insertMapping h1 with h3 | h4
      · exact Or.inl h3
      · exact Or.inr ⟨m, List.mem_cons_self _ _, h4⟩
    · obtain ⟨m2, hm2, heq⟩ := h2
      exact Or.inr ⟨m2, List.mem_cons_of_mem _ hm2, heq⟩

/-- C4 as amended: for a validated mapping set containing a non-empty
mapping `D`, `get_dotfiles_entries` never produces an entry whose path is a
strict descendant of `D` — when a traversal entry equals `D` it is emitted
as `Mapped` with no children enqueued, and the synthesized `Invalid`
entries are mappings, which validation keeps out of `D`'s subtree.  The
non-emptiness proviso is forced by the degenerate mapping `""` (see the
counterexample), which denotes the repository root itself. -/
theorem get_dotfiles_entries_no_strict_descendant (root : FsTree) (mappings : List PathBuf)
    (D : PathBuf)
    (hval : validate_nested_mappings mappings = Except.ok ())
    (hD : D ∈ mappings) (hne : D ≠ [])
    (p : PathBuf) (s : DotfilesEntryState)
    (hmem : (p, s) ∈ get_dotfiles_entries root mappings) :
    ¬ (D <+: p ∧ D ≠ p) := by
  rw [get_dotfiles_entries] at hmem
  rcases mem_foldl_insertMapping hmem with h1 | h2
  · have h1b : (p, s) ∈ walk mappings (initQueue root) := by
      rw [sortEntries] at h1
      exact (List.mem_insertionSort entryLeP).mp h1
    refine walk_no_strict_desc mappings D hD (initQueue root) ?_ p s h1b
    intro x hx
    cases root with
    | leaf => simp [initQueue] at hx
    | dir cs =>
      rw [initQueue] at hx
      obtain ⟨nc, hnc, rfl⟩ := List.mem_map.mp hx
      rintro ⟨hpre, hnex⟩
      have hpre2 : D <+: [] ++ [nc.1] := by simpa using hpre
      rcases isPrefix_snoc_cases hpre2 with h3 | h3
      · obtain ⟨t, ht⟩ := h3
        exact hne ((List.append_eq_nil.mp ht).1)
      · exact hnex (by simpa using h3)
  · obtain ⟨m, hm, heq⟩ := h2
    have hpm : p = m := (Prod.mk.injEq .. ▸ heq).1
    subst hpm
    rintro ⟨hpre, hnep⟩
    have hpw := validate_ok_pairwise mappings hval
    obtain ⟨i, hi⟩ := List.get_of_mem hD
    obtain ⟨j, hj⟩ := List.get_of_mem hm
    have hij : i ≠ j := fun hcon => hnep (by rw [← hi, hcon, hj])
    exact hpw i j hij (by rw [hi, hj]; exact hpre)

theorem get_dotfiles_entries_no_strict_descendant_witness :
    ¬ ((["a"] : PathBuf) <+: ["a"] ∧ (["a"] : PathBuf) ≠ ["a"]) :=
  get_dotfiles_entries_no_strict_descendant (FsTree.dir [("a", FsTree.leaf)]) [["a"]]
    ["a"] rfl (by simp) (by simp) ["a"] DotfilesEntryState.mapped
    (by simp [get_dotfiles_entries, initQueue, walk, sortEntries, insertMapping])

/-- C4 counterexample to the claim as stated: the empty relative path `""`
(Rust `PathBuf::from("")`, no components — denoting the repository root) is
a valid mapping on its own, it is a strict component-prefix of every
non-empty relative path, and with it configured the walker still emits the
root's children, which are strict descendants of that mapped directory. -/
theorem get_dotfiles_entries_empty_mapping_counterexample :
    validate_nested_mappings [([] : PathBuf)] = Except.ok () ∧
    ([] : PathBuf) ∈ [([] : PathBuf)] ∧
    (["a"], DotfilesEntryState.unmapped) ∈
      get_dotfiles_entries (FsTree.dir [("a", FsTree.leaf)]) [[]] ∧
    ([] : PathBuf) <+: ["a"] ∧ ([] : PathBuf) ≠ ["a"] := by
  refine ⟨rfl, by simp, ?_, List.nil_prefix, by simp⟩
  simp [get_dotfiles_entries, initQueue, walk, sortEntries, insertMapping, entryLeP, pathLe]

theorem sorted_insertMapping {l : List DotfilesEntry} {m : PathBuf}
    (h : List.Sorted entryLeP l) : List.Sorted entryLeP (insertMapping l m) := by
  rw [insertMapping]
  by_cases ha : (l.any fun e => e.1 == m) = true
  · rwa [if_pos ha]
  · rw [if_neg ha]
    exact List.Sorted.orderedInsert _ _ h

theorem sorted_foldl_insertMapping {ms : List PathBuf} {l : List DotfilesEntry}
    (h : List.Sorted entryLeP l) : List.Sorted entryLeP (ms.foldl insertMapping l) := by
  induction ms generalizing l with
  | nil => exact h
  | cons m rest ih => exact ih (sorted_insertMapping h)

/-- Number of occurrences of the synthesized `Invalid` entry for mapping
`m` in an entry list. -/
def countInv (m : PathBuf) (l : List DotfilesEntry) : Nat :=
  l.countP fun e => decide (e = (m, DotfilesEntryState.invalid))

theorem countInv_eq_zero {m : PathBuf} {l : List DotfilesEntry}
    (h : ∀ e ∈ l, e.1 ≠ m) : countInv m l = 0 := by
  rw [countInv, List.countP_eq_zero]
  intro e he
  simp only [decide_eq_true_eq]
  intro hcon
  exact h e he (by rw [hcon])

theorem countInv_insertMapping_ne {m m2 : PathBuf} {l : List DotfilesEntry}
    (hne : m2 ≠ m) : countInv m (insertMapping l m2) = countInv m l := by
  rw [insertMapping]
  by_cases ha : (l.any fun e => e.1 == m2) = true
  · rw [if_pos ha]
  · rw [if_neg ha]
    rw [countInv, (List.perm_orderedInsert entryLeP _ l).countP_eq, List.countP_cons]
    simp only [decide_eq_true_eq]
    rw [countInv]
    have : ¬ ((m2, DotfilesEntryState.invalid) = (m, DotfilesEntryState.invalid)) := by
      intro hcon
      exact hne (Prod.mk.injEq .. ▸ hcon).1
    simp [this]

theorem countInv_insertMapping_self {m : PathBuf} {l : List DotfilesEntry}
    (h : ∀ e ∈ l, e.1 ≠ m) : countInv m (insertMapping l m) = countInv m l + 1 := by
  have ha : (l.any fun e => e.1 == m) = false := by
    rw [Bool.eq_false_iff]
    intro hcon
    obtain ⟨e, he, heq⟩ := List.any_eq_true.mp hcon
    exact h e he (by simpa using heq)
  rw [insertMapping, if_neg (by simp [ha])]
  rw [countInv, (List.perm_orderedInsert entryLeP _ l).countP_eq, List.countP_cons]
  simp [countInv]

theorem no_path_insertMapping {m m2 : PathBuf} {l : List DotfilesEntry}
    (hne : m2 ≠ m) (h : ∀ e ∈ l, e.1 ≠ m) :
    ∀ e ∈ insertMapping l m2, e.1 ≠ m := by
  intro e he
  rcases mem_insertMapping he with h1 | h2
  · exact h e h1
  · rw [h2]
    exact hne

theorem countInv_foldl_not_mem {m : PathBuf} {ms : List PathBuf} {l : List DotfilesEntry}
    (hnm : m ∉ ms) : countInv m (ms.foldl insertMapping l) = countInv m l := by
  induction ms generalizing l with
  | nil => rfl
  | cons m2 rest ih =>
    have hne : m2 ≠ m := fun hcon => hnm (hcon ▸ List.mem_cons_self m2 rest)
    rw [List.foldl_cons, ih (fun hc => hnm (List.mem_cons_of_mem _ hc)),
      countInv_insertMapping_ne hne]

theorem no_path_foldl {m : PathBuf} {ms : List PathBuf} {l : List DotfilesEntry}
    (hnm : m ∉ ms) (h : ∀ e ∈ l, e.1 ≠ m) :
    ∀ e ∈ ms.foldl insertMapping l, e.1 ≠ m := by
  induction ms generalizing l with
  | nil => exact h
  | cons m2 rest ih =>
    have hne : m2 ≠ m := fun hcon => hnm (hcon ▸ List.mem_cons_self m2 rest)
    exact ih (fun hc => hnm (List.mem_cons_of_mem _ hc)) (no_path_insertMapping hne h)

theorem validate_ok_nodup {mappings : List PathBuf}
    (hval : validate_nested_mappings mappings = Except.ok ()) : mappings.Nodup := by
  have hpw := validate_ok_pairwise mappings hval
  rw [List.nodup_iff_injective_get]
  intro i j heq
  by_contra hcon
  exact hpw i j hcon (heq ▸ List.prefix_rfl)

/-- C5: for a validated mapping set, the result of `get_dotfiles_entries`
is sorted ascending by relative path (each synthesized `Invalid` entry is
inserted at its sorted position), and every configured mapping that the
traversal did not discover as a `Mapped` entry occurs in the result exactly
once as an `Invalid` entry carrying that mapping's path. -/
theorem get_dotfiles_entries_sorted_invalid_once (root : FsTree) (mappings : List PathBuf)
    (hval : validate_nested_mappings mappings = Except.ok ()) :
    List.Sorted entryLeP (get_dotfiles_entries root mappings) ∧
    ∀ m ∈ mappings, (m, DotfilesEntryState.mapped) ∉ walk mappings (initQueue root) →
      countInv m (get_dotfiles_entries root mappings) = 1 := by
  constructor
  · rw [get_dotfiles_entries]
    exact sorted_foldl_insertMapping (List.sorted_insertionSort entryLeP _)
  · intro m hm hnot
    have hl0 : ∀ e ∈ sortEntries (walk mappings (initQueue root)), e.1 ≠ m := by
      rintro ⟨ep, es⟩ he hcon
      simp only at hcon
      rw [hcon] at he
      have hew : (m, es) ∈ walk mappings (initQueue root) := by
        rw [sortEntries] at he
        exact (List.mem_insertionSort entryLeP).mp he
      rcases walk_state_mem mappings _ m es hew with ⟨hs, _⟩ | ⟨_, hnm⟩
      · exact hnot (hs ▸ hew)
      · exact hnm hm
    obtain ⟨pre, post, rfl⟩ := List.append_of_mem hm
    have hnodup := validate_ok_nodup hval
    rw [List.nodup_append] at hnodup
    obtain ⟨-, hnodup2, hdisj⟩ := hnodup
    have hmpre : m ∉ pre := fun hc => hdisj hc (List.mem_cons_self m post)
    have hmpost : m ∉ post := (List.nodup_cons.mp hnodup2).1
    rw [get_dotfiles_entries, List.foldl_append, List.foldl_cons]
    have hpre2 : ∀ e ∈ pre.foldl insertMapping (sortEntries (walk (pre ++ m :: post) (initQueue root))), e.1 ≠ m :=
      no_path_foldl hmpre hl0
    rw [countInv_foldl_not_mem hmpost, countInv_insertMapping_self hpre2,
      countInv_foldl_not_mem hmpre, countInv_eq_zero hl0]

theorem get_dotfiles_entries_sorted_invalid_once_witness :
    List.Sorted entryLeP (get_dotfiles_entries (FsTree.dir []) [["a"]]) ∧
      countInv ["a"] (get_dotfiles_entries (FsTree.dir []) [["a"]]) = 1 :=
  ⟨(get_dotfiles_entries_sorted_invalid_once (FsTree.dir []) [["a"]] rfl).1,
   (get_dotfiles_entries_sorted_invalid_once (FsTree.dir []) [["a"]] rfl).2 ["a"]
     (by simp) (by simp [walk, initQueue])⟩
